import Mathlib

/-!
Verification development for the `transcribe` CLI core
(subtitle parsing, key-moment selection, frame-transcript correlation,
sequential frame narration, chunked map-reduce summarization).

Text is modelled as `List Char` (JS strings), seconds as `ℚ` (exact
idealization of JS numbers; none of the verified properties depends on
binary floating-point rounding).  External AI calls are modelled as
oracle parameters / outcome values at the request-response boundary, and
the sequence of external calls is recorded as an explicit trace where a
property speaks about the calls that happen.
-/

set_option maxRecDepth 20000

namespace Transcribe

/-- JS whitespace class `\s` (ASCII part; the Unicode spaces JS also
accepts never occur in the inputs considered here). -/
def isWSChar (c : Char) : Bool :=
  c = ' ' || c = '\t' || c = '\n' || c = '\r' || c = '\x0b' || c = '\x0c'

/-- Sentence terminators of the chunking regex `[^.!?]+[.!?]+`. -/
def isTermChar (c : Char) : Bool := c = '.' || c = '!' || c = '?'

/-- Leading-whitespace strip, one half of JS `String.prototype.trim`. -/
def dropLeadWS (l : List Char) : List Char := l.dropWhile isWSChar

/-- JS `String.prototype.trim` on `List Char`: strip whitespace from
both ends. -/
def trimChars (l : List Char) : List Char :=
  ((l.dropWhile isWSChar).reverse.dropWhile isWSChar).reverse

/-- All non-whitespace characters of a string, in order ("the text up to
whitespace normalization"). -/
def stripWS (l : List Char) : List Char := l.filter (fun c => !isWSChar c)

/-- JS `replace(/\s+/g, ' ')`: each maximal whitespace run becomes one
space.  `prevWS` records whether the previous character was whitespace. -/
def collapseWSGo : List Char → Bool → List Char
  | [], _ => []
  | c :: rest, prevWS =>
    if isWSChar c then
      if prevWS then collapseWSGo rest true else ' ' :: collapseWSGo rest true
    else c :: collapseWSGo rest false

def collapseWS (l : List Char) : List Char := collapseWSGo l false

/-- JS `String.prototype.includes` (substring test). -/
def containsSub (pat l : List Char) : Bool :=
  l.tails.any (fun t => pat.isPrefixOf t)

/-- JS `String.prototype.toLowerCase` (ASCII). -/
def toLowerChars (l : List Char) : List Char := l.map Char.toLower

/-- JS `String.prototype.split(sep)` for a single-character separator
(empty pieces preserved, as in JS). -/
def splitOnCharGo (sep : Char) : List Char → List Char → List (List Char)
  | [], cur => [cur.reverse]
  | c :: rest, cur =>
    if c = sep then cur.reverse :: splitOnCharGo sep rest []
    else splitOnCharGo sep rest (c :: cur)

def splitOnChar (sep : Char) (l : List Char) : List (List Char) :=
  splitOnCharGo sep l []

/-- Decimal digits of a natural number. -/
def natToChars (n : ℕ) : List Char := Nat.toDigits 10 n

/-- Decimal rendering of an integer. -/
def intToChars (n : ℤ) : List Char :=
  if n < 0 then '-' :: natToChars n.natAbs else natToChars n.toNat

/-- Rendering of a JS number held as an exact rational.  Integral values
print exactly as JS does; for non-integral values JS prints the shortest
decimal form of the underlying double, which has no exact counterpart
here, so `num/den` stands in (no verified property evaluates this case). -/
def ratToChars (q : ℚ) : List Char :=
  if q.den = 1 then intToChars q.num
  else intToChars q.num ++ ('/' :: natToChars q.den)

/-- JS `String.prototype.padStart(2, '0')`. -/
def padStart2 (l : List Char) : List Char :=
  if l.length < 2 then List.replicate (2 - l.length) '0' ++ l else l

/-- JS `Math.trunc`-style integer part of a rational (round toward 0),
the rounding used by the JS `%` operator. -/
def ratTrunc (x : ℚ) : ℤ := if 0 ≤ x then ⌊x⌋ else -⌊-x⌋

/-- `formatTimestamp` of `src/lib/processor.ts`:
`minutes = Math.floor(seconds / 60); secs = seconds % 60;`
rendered as `minutes:secs.padStart(2, '0')`. -/
def formatTimestampChars (seconds : ℚ) : List Char :=
  let minutes : ℤ := ⌊seconds / 60⌋
  let secs : ℚ := seconds - 60 * (mkRat (ratTrunc (seconds / 60)) 1)
  intToChars minutes ++ (':' :: padStart2 (ratToChars secs))

/-! ## Data model (`src/lib/processor.ts`) -/

/-- `TranscriptSegment` (the source field `end` is a Lean keyword, hence
`endTime`). -/
structure TranscriptSegment where
  text : List Char
  start : ℚ
  endTime : ℚ
deriving DecidableEq, Repr

structure TimestampedTranscript where
  fullText : List Char
  segments : List TranscriptSegment
deriving DecidableEq, Repr

/-- `FrameInfo` (`path` is the opaque image locator). -/
structure FrameInfo where
  path : List Char
  timestamp : ℚ
  frameNumber : ℕ
deriving DecidableEq, Repr

structure KeyMoment where
  timestamp : ℚ
  reason : List Char
deriving DecidableEq, Repr

structure VTTCue where
  start : ℚ
  endTime : ℚ
  text : List Char
deriving DecidableEq, Repr

/-! ## Subtitle parser (`parseVTT`, `parseVTTTimestamp`) -/

/-- Index of the last `'\n'` in `w` (callers guarantee one exists). -/
def lastNewlineIdx (w : List Char) : ℕ :=
  w.length - 1 - (w.reverse.takeWhile (fun c => c ≠ '\n')).length

/-- JS `content.split(/\n\s*\n/)`.  A separator match starts at a `'\n'`
whose maximal following whitespace run contains another `'\n'`; the
greedy `\s*` makes the match end at the last `'\n'` of that run.  `acc`
accumulates the current piece reversed; the fuel argument (initially the
input length) only certifies termination, every step consumes at least
one character. -/
def splitBlocksGo : ℕ → List Char → List Char → List (List Char)
  | 0, l, acc => [acc.reverse ++ l]
  | _ + 1, [], acc => [acc.reverse]
  | fuel + 1, c :: rest, acc =>
    if c = '\n' then
      let w := rest.takeWhile isWSChar
      if w.contains '\n' then
        acc.reverse :: splitBlocksGo fuel (rest.drop (lastNewlineIdx w + 1)) []
      else splitBlocksGo fuel rest (c :: acc)
    else splitBlocksGo fuel rest (c :: acc)

/-- The cue blocks of a subtitle file: split on blank-line separators and
drop whitespace-only pieces (JS `.filter(block => block.trim())`). -/
def blocksOf (content : List Char) : List (List Char) :=
  (splitBlocksGo content.length content []).filter (fun b => !(trimChars b).isEmpty)

/-- `parseVTTTimestamp`: `HH:MM:SS{.|,}mmm` to seconds
(`hours*3600 + minutes*60 + parseFloat("SS.mmm")`), computed as one
exact rational. -/
def parseVTTTimestampQ (h m s ms : ℕ) : ℚ :=
  mkRat (((h * 3600 + m * 60 + s) * 1000 + ms : ℕ) : ℤ) 1000

/-- Read exactly two decimal digits. -/
def twoDigits : List Char → Option (ℕ × List Char)
  | a :: b :: rest =>
    if a.isDigit && b.isDigit then
      some ((a.toNat - '0'.toNat) * 10 + (b.toNat - '0'.toNat), rest)
    else none
  | _ => none

/-- Read exactly three decimal digits. -/
def threeDigits : List Char → Option (ℕ × List Char)
  | a :: b :: c :: rest =>
    if a.isDigit && b.isDigit && c.isDigit then
      some (((a.toNat - '0'.toNat) * 10 + (b.toNat - '0'.toNat)) * 10 +
        (c.toNat - '0'.toNat), rest)
    else none
  | _ => none

/-- One side of the arrow: `\d{2}:\d{2}:\d{2}[.,]\d{3}`, returning its
value in seconds and the rest of the line. -/
def parseTsChunk (l : List Char) : Option (ℚ × List Char) :=
  match twoDigits l with
  | none => none
  | some (h, r1) =>
    match r1 with
    | ':' :: r2 =>
      match twoDigits r2 with
      | none => none
      | some (m, r3) =>
        match r3 with
        | ':' :: r4 =>
          match twoDigits r4 with
          | none => none
          | some (s, r5) =>
            match r5 with
            | d :: r6 =>
              if d = '.' || d = ',' then
                match threeDigits r6 with
                | none => none
                | some (ms, r7) => some (parseVTTTimestampQ h m s ms, r7)
              else none
            | [] => none
        | _ => none
    | _ => none

/-- Attempt the whole timestamp-pair pattern
`ts \s* --> \s* ts` at the current position. -/
def tryTsPairAt (l : List Char) : Option (ℚ × ℚ) :=
  match parseTsChunk l with
  | none => none
  | some (t1, r1) =>
    match (r1.dropWhile isWSChar) with
    | '-' :: '-' :: '>' :: r2 =>
      match parseTsChunk (r2.dropWhile isWSChar) with
      | none => none
      | some (t2, _) => some (t1, t2)
    | _ => none

/-- Leftmost match of
`/(\d{2}:\d{2}:\d{2}[.,]\d{3})\s*-->\s*(\d{2}:\d{2}:\d{2}[.,]\d{3})/`
in a line (the pattern is deterministic at each start position, so
scanning start positions left to right is exactly the regex search). -/
def firstTsPair : List Char → Option (ℚ × ℚ)
  | [] => none
  | c :: rest =>
    match tryTsPairAt (c :: rest) with
    | some p => some p
    | none => firstTsPair rest

/-- The arrow test `line.includes('-->')`. -/
def hasArrow (line : List Char) : Bool := containsSub ['-', '-', '>'] line

/-- `block.trim().split('\n')` — the lines a block is processed as. -/
def blockLines (block : List Char) : List (List Char) :=
  splitOnChar '\n' (trimChars block)

/-- The cue text of a block: all lines after the (first) timestamp line,
joined with spaces and trimmed.  When no line contains `-->` the index
past the end makes this `[]`. -/
def blockCueText (lines : List (List Char)) : List Char :=
  let idx := lines.findIdx hasArrow
  trimChars (List.intercalate [' '] (lines.drop (idx + 1)))

/-- Per-block step of `parseVTT`'s loop: header/comment blocks, blocks of
fewer than two lines, blocks without an arrow line, lines where the
timestamp regex fails, and blocks with empty cue text all yield no cue. -/
def parseBlock (block : List Char) : Option VTTCue :=
  if "WEBVTT".toList.isPrefixOf block || "NOTE".toList.isPrefixOf block then
    none
  else if (blockLines block).length < 2 then none
  else
    match (blockLines block).find? hasArrow with
    | none => none
    | some tsLine =>
      match firstTsPair tsLine with
      | none => none
      | some (t1, t2) =>
        if (blockCueText (blockLines block)).isEmpty then none
        else some { start := t1, endTime := t2,
                    text := blockCueText (blockLines block) }

/-- One iteration of `parseVTT`'s block loop (`cues.push(...)`). -/
def pushCue (acc : List VTTCue) (b : List Char) : List VTTCue :=
  match parseBlock b with
  | some cue => acc ++ [cue]
  | none => acc

/-- `parseVTT` (pure part, file contents already read): iterate over the
blocks, collecting the cues of well-formed ones, then build the
transcript with `fullText` as the segment texts joined by spaces. -/
def parseVTT (content : List Char) : TimestampedTranscript :=
  let cues : List VTTCue := (blocksOf content).foldl pushCue []
  let segments : List TranscriptSegment :=
    cues.map (fun cue => { text := cue.text, start := cue.start, endTime := cue.endTime })
  { fullText := List.intercalate [' '] (segments.map (·.text)), segments := segments }

/-! ## Frame-transcript context matcher (`getRelevantTranscriptForFrame`) -/

/-- The sentinel returned when no segment overlaps the window. -/
def noTranscriptSentinel : List Char :=
  "[No transcript available for this timestamp]".toList

/-- A segment overlaps the window `[t - c, t + c]`. -/
def overlapsWindow (startTime endTime : ℚ) (s : TranscriptSegment) : Bool :=
  decide (s.start ≤ endTime) && decide (startTime ≤ s.endTime)

/-- `getRelevantTranscriptForFrame` (default window 5 seconds). -/
def getRelevantTranscriptForFrame (frameTimestamp : ℚ)
    (segments : List TranscriptSegment) (contextSeconds : ℚ := 5) : List Char :=
  let startTime := frameTimestamp - contextSeconds
  let endTime := frameTimestamp + contextSeconds
  let relevantSegments := segments.filter (overlapsWindow startTime endTime)
  if relevantSegments.isEmpty then noTranscriptSentinel
  else List.intercalate [' '] (relevantSegments.map (·.text))

/-! ## Key-moment selector (`identifyKeyMoments`) -/

/-- JS `Math.abs` on the exact rationals. -/
def qAbs (q : ℚ) : ℚ := if q < 0 then -q else q

/-- One iteration of the validation loop (`processor.ts` lines 458-466):
look for the first actual start within 1 second (`Array.prototype.find`
in array order); accept it if unclaimed; otherwise accept the raw
timestamp if it is itself an unclaimed actual start; otherwise drop. -/
def validStep (starts : List ℚ) (acc : List KeyMoment) (moment : KeyMoment) :
    List KeyMoment :=
  match starts.find? (fun t => decide (qAbs (t - moment.timestamp) < 1)) with
  | some closest =>
    if acc.any (fun m => decide (m.timestamp = closest)) then
      if starts.any (fun t => decide (t = moment.timestamp)) &&
          !acc.any (fun m => decide (m.timestamp = moment.timestamp)) then
        acc ++ [moment]
      else acc
    else acc ++ [{ timestamp := closest, reason := moment.reason }]
  | none =>
    if starts.any (fun t => decide (t = moment.timestamp)) &&
        !acc.any (fun m => decide (m.timestamp = moment.timestamp)) then
      acc ++ [moment]
    else acc

/-- The validation pass over all parsed candidates. -/
def validateMoments (starts : List ℚ) (candidates : List KeyMoment) :
    List KeyMoment :=
  candidates.foldl (validStep starts) []

/-- The salience keywords of the fallback heuristic (`keyPhrases`). -/
def keyPhrases : List (List Char) :=
  ["today".toList, "going to".toList,
   ('l' :: 'e' :: 't' :: Char.ofNat 39 :: 's' :: []),
   "look at".toList, "see".toList, "show".toList, "example".toList,
   "important".toList, "key".toList, "main".toList, "first".toList,
   "second".toList, "finally".toList, "summary".toList,
   "conclusion".toList, "question".toList, "how".toList, "what".toList,
   "why".toList, "when".toList, "where".toList]

/-- A segment whose lowercased text contains a salience keyword. -/
def hasKeyPhrase (s : TranscriptSegment) : Bool :=
  keyPhrases.any (fun ph => containsSub ph (toLowerChars s.text))

/-- Preview reason used by both fallback scan loops:
`text.substring(0, 60).replace(/\s+/g, ' ').trim()` plus `...` when the
text was longer than 60 characters. -/
def previewReason (text : List Char) : List Char :=
  trimChars (collapseWS (text.take 60)) ++
    (if 60 < text.length then "...".toList else [])

/-- `Opening: ` + first 50 characters + `...`. -/
def openingReason (s : TranscriptSegment) : List Char :=
  "Opening: ".toList ++ s.text.take 50 ++ "...".toList

/-- `Conclusion: ` + first 50 characters + `...`. -/
def conclusionReason (s : TranscriptSegment) : List Char :=
  "Conclusion: ".toList ++ s.text.take 50 ++ "...".toList

/-- Visit every `step`-th element of a list starting with the first
(the `for (let i = 0; ...; i += step)` index pattern); `k` counts down
to the next visited element.  Callers always pass `step ≥ 1`. -/
def strideGo (step : ℕ) : List α → ℕ → List α
  | [], _ => []
  | x :: rest, 0 => x :: strideGo step rest (step - 1)
  | _ :: rest, k + 1 => strideGo step rest k

def strideFromFirst (step : ℕ) (l : List α) : List α := strideGo step l 0

/-- Indices `step, 2*step, ...` (the second fallback loop starts at
`i = step`). -/
def strideFromStep (step : ℕ) (l : List α) : List α :=
  strideFromFirst step (l.drop step)

/-- One conditional push of the fallback scan loops: add the segment's
start with a preview reason unless that timestamp is already claimed. -/
def scanPush (acc : List KeyMoment) (seg : TranscriptSegment) : List KeyMoment :=
  if acc.any (fun m => decide (m.timestamp = seg.start)) then acc
  else acc ++ [{ timestamp := seg.start, reason := previewReason seg.text }]

/-- Shared body of both fallback scan loops: bail out (for good) once
`maxFrames - 1` moments are collected, otherwise add the segment's start
if unclaimed and continue. -/
def scanLoop (maxFrames : ℕ) : List TranscriptSegment → List KeyMoment →
    List KeyMoment
  | [], acc => acc
  | seg :: rest, acc =>
    if acc.length < maxFrames - 1 then
      scanLoop maxFrames rest (scanPush acc seg)
    else acc

/-- The deterministic fallback heuristic (`processor.ts` lines 469-533):
first segment's start, then strided keyword matches, then (if still
short of `min(10, maxFrames)`) an even stride over all segments, then
the last segment's start.

The JS stride is `Math.max(1, Math.floor(len / (maxFrames - 2)))`; for
`maxFrames ≤ 2` the JS division yields `Infinity`/a negative value where
the ℕ version yields division by zero, but in every such case the
`acc.length < maxFrames - 1` bound already stops the loop before any
element is visited, so the two agree. -/
def fallbackOpening (segments : List TranscriptSegment) : List KeyMoment :=
  match segments with
  | [] => []
  | s :: _ => [{ timestamp := s.start, reason := openingReason s }]

/-- Step 2 of the heuristic: stride through the keyword-bearing segments
(`step = Math.max(1, Math.floor(importantSegments.length / (maxFrames - 2)))`). -/
def fallbackAfterKeywords (segments : List TranscriptSegment) (maxFrames : ℕ) :
    List KeyMoment :=
  let important := segments.filter hasKeyPhrase
  scanLoop maxFrames
    (strideFromFirst (max 1 (important.length / (maxFrames - 2))) important)
    (fallbackOpening segments)

/-- Step 3: when still short of `min(10, maxFrames)`, stride evenly
through all segments starting at index `step`. -/
def fallbackAfterEven (segments : List TranscriptSegment) (maxFrames : ℕ) :
    List KeyMoment :=
  let acc1 := fallbackAfterKeywords segments maxFrames
  if acc1.length < min 10 maxFrames then
    let targetCount := min (maxFrames - acc1.length) segments.length
    scanLoop maxFrames
      (strideFromStep (max 1 (segments.length / targetCount)) segments) acc1
  else acc1

def fallbackMoments (segments : List TranscriptSegment) (maxFrames : ℕ) :
    List KeyMoment :=
  let acc2 := fallbackAfterEven segments maxFrames
  match segments.getLast? with
  | none => acc2
  | some lastSeg =>
    if acc2.any (fun m => decide (m.timestamp = lastSeg.start)) then acc2
    else acc2 ++ [{ timestamp := lastSeg.start, reason := conclusionReason lastSeg }]

/-- Comparator of the final `sort((a, b) => a.timestamp - b.timestamp)`. -/
def byTimestamp (a b : KeyMoment) : Prop := a.timestamp ≤ b.timestamp

instance : DecidableRel byTimestamp := fun a b => by
  unfold byTimestamp; infer_instance

instance : IsTotal KeyMoment byTimestamp :=
  ⟨fun a b => le_total a.timestamp b.timestamp⟩

instance : IsTrans KeyMoment byTimestamp :=
  ⟨fun _ _ _ h1 h2 => le_trans h1 h2⟩

/-- The pure core of `identifyKeyMoments`, from the already-parsed
candidate list (the response parser is lenient and can produce any
`List KeyMoment`, so quantifying over `candidates` covers every AI
response text): validate and snap, rebuild via the fallback heuristic
when fewer than `min(3, segmentCount)` moments survived, then sort by
timestamp and truncate to `maxFrames`.  The JS `Array.prototype.sort` is
stable, as is insertion sort. -/
def identifyKeyMomentsCore (segments : List TranscriptSegment)
    (maxFrames : ℕ) (candidates : List KeyMoment) : List KeyMoment :=
  let starts := segments.map (·.start)
  let valid := validateMoments starts candidates
  let chosen :=
    if valid.length < min 3 starts.length then fallbackMoments segments maxFrames
    else valid
  (List.insertionSort byTimestamp chosen).take maxFrames

/-- Outcome of the selector's AI text call (request-response boundary):
either a response that parses to `candidates`, or the call raising. -/
inductive AiTextOutcome where
  | ok (candidates : List KeyMoment)
  | err
deriving DecidableEq, Repr

/-- `identifyKeyMoments` with its outer `try/catch`: the catch block
(lines 538-541) logs and **rethrows**, so a failing AI call escapes to
the caller as an error. -/
def identifyKeyMomentsE (segments : List TranscriptSegment) (maxFrames : ℕ)
    (outcome : AiTextOutcome) : Except Unit (List KeyMoment) :=
  match outcome with
  | .ok candidates => .ok (identifyKeyMomentsCore segments maxFrames candidates)
  | .err => .error ()

/-- How the caller (`index.ts` lines 331-354) sources frames: key moments
when the selector succeeds, fixed-interval extraction when it throws. -/
inductive FrameSource where
  | keyMoments (l : List KeyMoment)
  | fixedIntervals
deriving DecidableEq, Repr

def chooseFrameSource (segments : List TranscriptSegment) (maxFrames : ℕ)
    (outcome : AiTextOutcome) : FrameSource :=
  match identifyKeyMomentsE segments maxFrames outcome with
  | .ok l => .keyMoments l
  | .error _ => .fixedIntervals

/-! ## Chunking engine (`summarizeWithOllama`, lines 843-861) -/

/-- State machine equivalent of `transcript.match(/[^.!?]+[.!?]+/g)`:
`cur` is the reversed prefix of the match being built, `inTerm` is true
while inside the trailing `[.!?]+` run.  A match can only start at a
non-terminator, so leading terminators are skipped, and a final
non-terminator run that never meets a terminator is no match. -/
def msGo : List Char → List Char → Bool → List (List Char)
  | [], cur, inTerm => if inTerm then [cur.reverse] else []
  | c :: rest, cur, inTerm =>
    if inTerm then
      if isTermChar c then msGo rest (c :: cur) true
      else cur.reverse :: msGo rest [c] false
    else
      if isTermChar c then
        if cur.isEmpty then msGo rest [] false
        else msGo rest (c :: cur) true
      else msGo rest (c :: cur) false

/-- All matches of the sentence regex, in order. -/
def matchSentences (text : List Char) : List (List Char) := msGo text [] false

/-- `transcript.match(...) || [transcript]`: when the regex finds no
sentence at all, the whole text is the single "sentence". -/
def sentencesOf (text : List Char) : List (List Char) :=
  if (matchSentences text).isEmpty then [text] else matchSentences text

/-- `MAX_CHUNK_SIZE` (characters per chunk). -/
def MAX_CHUNK_SIZE : ℕ := 3000

/-- The sentence-accumulation loop: flush the (trimmed) buffer whenever
appending the next sentence would exceed the bound and the buffer is
non-empty; otherwise append. -/
def chunkLoop : List (List Char) → List (List Char) → List Char →
    List (List Char) × List Char
  | [], chunks, cur => (chunks, cur)
  | s :: rest, chunks, cur =>
    if cur.length + s.length > MAX_CHUNK_SIZE && cur.length > 0 then
      chunkLoop rest (chunks ++ [trimChars cur]) s
    else chunkLoop rest chunks (cur ++ s)

/-- The chunks of a transcript: run the loop over the sentences and
flush the remaining buffer if it trims to something non-empty
(`if (currentChunk.trim()) chunks.push(currentChunk.trim())`). -/
def chunksOf (text : List Char) : List (List Char) :=
  let p := chunkLoop (sentencesOf text) [] []
  if (trimChars p.2).isEmpty then p.1 else p.1 ++ [trimChars p.2]

/-! ## Map-reduce summarizer (`summarizeWithOllama`, lines 863-882) -/

/-- One external Ollama text call of the summarizer, as recorded in the
call trace: a map call carries the chunk text and its 1-based number and
the total, the reduce call carries the mapped extractions (in order) and
the frame narrations it also receives. -/
inductive OllamaCall where
  | map (chunk : List Char) (chunkNumber totalChunks : ℕ)
  | reduce (mappedChunks : List (List Char)) (frameSummaries : List (List Char))
deriving DecidableEq, Repr

/-- The sequential map loop, threading the 0-based index `i`; returns the
mapped extractions and the map calls it made, both in chunk order.
`mapOracle chunk n total` is the model's response to the map prompt. -/
def mapPhase (mapOracle : List Char → ℕ → ℕ → List Char) (total : ℕ) :
    ℕ → List (List Char) → List (List Char) × List OllamaCall
  | _, [] => ([], [])
  | i, c :: rest =>
    let m := mapOracle c (i + 1) total
    let p := mapPhase mapOracle total (i + 1) rest
    (m :: p.1, .map c (i + 1) total :: p.2)

/-- `summarizeWithOllama` (pure part past the model-availability check):
chunk the transcript; with exactly one chunk, map the whole transcript
once and reduce once; otherwise map every chunk in order, then reduce
all mapped extractions once.  Returns the summary together with the
trace of external calls in the order they were made. -/
def summarizeWithOllama (transcript : List Char)
    (frameSummaries : List (List Char))
    (mapOracle : List Char → ℕ → ℕ → List Char)
    (reduceOracle : List (List Char) → List (List Char) → List Char) :
    List Char × List OllamaCall :=
  let chunks := chunksOf transcript
  if chunks.length = 1 then
    let mapped := mapOracle transcript 1 1
    (reduceOracle [mapped] frameSummaries,
     [.map transcript 1 1, .reduce [mapped] frameSummaries])
  else
    let p := mapPhase mapOracle chunks.length 0 chunks
    (reduceOracle p.1 frameSummaries,
     p.2 ++ [.reduce p.1 frameSummaries])

/-! ## Sequential frame narrator (`summarizeFrame` and the frame loop of
`index.ts` lines 357-397) -/

/-- Outcome of one vision call: a successful description, the HTTP-400
"model rejects images" response (caught inside `summarizeFrame`), or any
other error (rethrown by `summarizeFrame`). -/
inductive VisionOutcome where
  | ok (content : List Char)
  | rejectsImages
  | err
deriving DecidableEq, Repr

/-- The prompt `summarizeFrame` builds (lines 268-274); the
previous-frame context section is present exactly when a carried
description exists. -/
def framePrompt (frame : FrameInfo) (previousFrameContext : Option (List Char)) :
    List Char :=
  "Analyze this video frame at timestamp ".toList ++
    formatTimestampChars frame.timestamp ++
    " (frame #".toList ++ natToChars frame.frameNumber ++
    ") and describe what you see. Focus on the main visual elements, any text visible, the scene or activity shown, and any notable details.".toList ++
    (match previousFrameContext with
     | some p =>
       "\n\nFor context, the previous frame showed: ".toList ++ p ++
         "\n\nDescribe how this frame relates to or differs from the previous one.".toList
     | none => []) ++
    " Keep your description concise but informative.".toList

/-- The `[m:ss] Frame N: ` prefix of every `summarizeFrame` result. -/
def frameHeader (frame : FrameInfo) : List Char :=
  '[' :: formatTimestampChars frame.timestamp ++ "] Frame ".toList ++
    natToChars frame.frameNumber ++ ": ".toList

/-- The placeholder body returned when the model rejects image input. -/
def unsupportedPlaceholder : List Char :=
  "[Image analysis not supported by model]".toList

/-- `summarizeFrame`: on success the description is returned behind the
header; an HTTP-400 response is caught and converted into a normally
returned placeholder narration; any other error propagates. -/
def summarizeFrameResult (frame : FrameInfo) (outcome : VisionOutcome) :
    Except Unit (List Char) :=
  match outcome with
  | .ok content => .ok (frameHeader frame ++ content)
  | .rejectsImages => .ok (frameHeader frame ++ unsupportedPlaceholder)
  | .err => .error ()

/-- Try the regex `/Frame \d+: (.+)$/` at the current position:
`Frame `, one or more digits, `: `, then a capture that must be
non-empty, free of line terminators, and reach the end of the string. -/
def tryFrameDescAt (l : List Char) : Option (List Char) :=
  if "Frame ".toList.isPrefixOf l then
    let r := l.drop 6
    let ds := r.takeWhile Char.isDigit
    if ds.isEmpty then none
    else
      let r2 := r.drop ds.length
      if ": ".toList.isPrefixOf r2 then
        let cap := r2.drop 2
        if !cap.isEmpty && !cap.contains '\n' && !cap.contains '\r' then some cap
        else none
      else none
  else none

/-- Leftmost match of `/Frame \d+: (.+)$/`
(`frameSummary.match(...)`), returning the capture group. -/
def matchFrameDesc : List Char → Option (List Char)
  | [] => none
  | c :: rest =>
    match tryFrameDescAt (c :: rest) with
    | some cap => some cap
    | none => matchFrameDesc rest

/-- The failure entry `[${timestamp}s] Frame N: [Analysis failed]`
pushed by the loop's catch branch. -/
def failMarker (frame : FrameInfo) : List Char :=
  '[' :: ratToChars frame.timestamp ++ "s] Frame ".toList ++
    natToChars frame.frameNumber ++ ": [Analysis failed]".toList

/-- The suffix appended to a successful narration:
`\n    Transcript context: "..."`. -/
def transcriptContextSuffix (frame : FrameInfo)
    (segments : List TranscriptSegment) : List Char :=
  "\n    Transcript context: \"".toList ++
    getRelevantTranscriptForFrame frame.timestamp segments ++ "\"".toList

/-- Loop state of the sequential frame loop: the carried
`previousFrameDescription`, the collected `frameSummaries`, and (trace)
the prompt sent for each frame. -/
structure NarratorState where
  prev : Option (List Char)
  summaries : List (List Char)
  prompts : List (List Char)
deriving DecidableEq, Repr

/-- One iteration of the frame loop (`index.ts` lines 366-394).  On a
normally returned summary, the carried context becomes the trimmed
capture of `/Frame \d+: (.+)$/` when it matches (note that the
rejects-images placeholder matches too) and is left unchanged otherwise;
on a thrown error, the failure marker is pushed and the context is reset. -/
def narrateStep (segments : List TranscriptSegment) (st : NarratorState)
    (p : FrameInfo × VisionOutcome) : NarratorState :=
  let prompt := framePrompt p.1 st.prev
  match summarizeFrameResult p.1 p.2 with
  | .ok frameSummary =>
    { prev :=
        match matchFrameDesc frameSummary with
        | some cap => some (trimChars cap)
        | none => st.prev,
      summaries := st.summaries ++ [frameSummary ++ transcriptContextSuffix p.1 segments],
      prompts := st.prompts ++ [prompt] }
  | .error _ =>
    { prev := none,
      summaries := st.summaries ++ [failMarker p.1],
      prompts := st.prompts ++ [prompt] }

/-- The whole sequential frame loop over the frames paired with their
vision-call outcomes. -/
def narrateFrames (segments : List TranscriptSegment)
    (frames : List (FrameInfo × VisionOutcome)) : NarratorState :=
  frames.foldl (narrateStep segments) { prev := none, summaries := [], prompts := [] }

/-- The narration entry a single frame contributes, as a function of that
frame and its outcome alone. -/
def narrationEntry (segments : List TranscriptSegment)
    (p : FrameInfo × VisionOutcome) : List Char :=
  match summarizeFrameResult p.1 p.2 with
  | .ok frameSummary => frameSummary ++ transcriptContextSuffix p.1 segments
  | .error _ => failMarker p.1

/-! ## Auxiliary predicates and demonstration inputs -/

/-- The invariant every selector list maintains: each timestamp is an
actual segment start, and no two entries share a timestamp. -/
def TsInv (starts : List ℚ) (l : List KeyMoment) : Prop :=
  (∀ m ∈ l, m.timestamp ∈ starts) ∧
  l.Pairwise (fun a b => a.timestamp ≠ b.timestamp)

/-- A transcript long enough to chunk into two pieces (each sentence is
3002 characters against the 3000-character chunk bound). -/
def bigText : List Char :=
  List.replicate 3001 'a' ++ '.' :: List.replicate 3001 'b' ++ ['.']

def bigSentence1 : List Char := List.replicate 3001 'a' ++ ['.']

def bigSentence2 : List Char := List.replicate 3001 'b' ++ ['.']

/-! ## Helper lemmas -/

theorem narrate_foldl_summaries (segments : List TranscriptSegment)
    (frames : List (FrameInfo × VisionOutcome)) (st : NarratorState) :
    (frames.foldl (narrateStep segments) st).summaries =
      st.summaries ++ frames.map (narrationEntry segments) := by
  induction frames generalizing st with
  | nil => simp
  | cons p rest ih =>
    rw [List.foldl_cons, ih, List.map_cons]
    cases hp : summarizeFrameResult p.1 p.2 <;>
      simp [narrateStep, narrationEntry, hp]

theorem foldl_pushCue_filterMap :
    ∀ (l : List (List Char)) (acc : List VTTCue),
    l.foldl pushCue acc = acc ++ l.filterMap parseBlock := by
  intro l
  induction l with
  | nil => intro acc; simp
  | cons b rest ih =>
    intro acc
    rw [List.foldl_cons, List.filterMap_cons, pushCue]
    cases hf : parseBlock b with
    | none => simp only [hf]; exact ih acc
    | some x => simp only [hf, ih, List.append_assoc, List.singleton_append]

theorem narrateStep_prompts (segments : List TranscriptSegment)
    (st : NarratorState) (p : FrameInfo × VisionOutcome) :
    (narrateStep segments st p).prompts =
      st.prompts ++ [framePrompt p.1 st.prev] := by
  cases h : summarizeFrameResult p.1 p.2 <;> simp [narrateStep, h]

theorem narrateStep_err (segments : List TranscriptSegment)
    (st : NarratorState) (f : FrameInfo) :
    narrateStep segments st (f, VisionOutcome.err) =
      { prev := none,
        summaries := st.summaries ++ [failMarker f],
        prompts := st.prompts ++ [framePrompt f st.prev] } := by
  simp [narrateStep, summarizeFrameResult]

theorem narrate_prompts_extend (segments : List TranscriptSegment) :
    ∀ (frames : List (FrameInfo × VisionOutcome)) (st : NarratorState),
    ∃ t, (frames.foldl (narrateStep segments) st).prompts = st.prompts ++ t := by
  intro frames
  induction frames with
  | nil => intro st; exact ⟨[], by simp⟩
  | cons p rest ih =>
    intro st
    obtain ⟨t, ht⟩ := ih (narrateStep segments st p)
    rw [List.foldl_cons]
    exact ⟨framePrompt p.1 st.prev :: t,
      by rw [ht, narrateStep_prompts, List.append_assoc, List.singleton_append]⟩

theorem narrate_prompts_length (segments : List TranscriptSegment) :
    ∀ (frames : List (FrameInfo × VisionOutcome)) (st : NarratorState),
    (frames.foldl (narrateStep segments) st).prompts.length =
      st.prompts.length + frames.length := by
  intro frames
  induction frames with
  | nil => intro st; simp
  | cons p rest ih =>
    intro st
    rw [List.foldl_cons, ih, narrateStep_prompts]
    simp
    omega

theorem mapPhase_eq (oracle : List Char → ℕ → ℕ → List Char) (total : ℕ)
    (i : ℕ) (chunks : List (List Char)) :
    mapPhase oracle total i chunks =
      ((chunks.enumFrom i).map (fun p => oracle p.2 (p.1 + 1) total),
       (chunks.enumFrom i).map (fun p => OllamaCall.map p.2 (p.1 + 1) total)) := by
  induction chunks generalizing i with
  | nil => simp [mapPhase]
  | cons c rest ih => simp [mapPhase, List.enumFrom_cons, ih]

theorem two_le_length_of_mem_ne {α : Type _} {a b : α} {l : List α}
    (ha : a ∈ l) (hb : b ∈ l) (hne : a ≠ b) : 2 ≤ l.length := by
  match l with
  | [] => cases ha
  | [x] =>
    rw [List.mem_singleton] at ha hb
    exact absurd (ha.trans hb.symm) hne
  | x :: y :: rest => simp [Nat.succ_le_succ, Nat.le_add_left]

theorem tsInv_nil (starts : List ℚ) : TsInv starts [] :=
  ⟨by simp, List.Pairwise.nil⟩

theorem tsInv_push {starts : List ℚ} {l : List KeyMoment} (h : TsInv starts l)
    (m : KeyMoment) (hm : m.timestamp ∈ starts)
    (hnew : l.any (fun x => decide (x.timestamp = m.timestamp)) = false) :
    TsInv starts (l ++ [m]) := by
  constructor
  · intro x hx
    rcases List.mem_append.1 hx with hx | hx
    · exact h.1 x hx
    · rw [List.mem_singleton] at hx
      subst hx; exact hm
  · rw [List.pairwise_append]
    refine ⟨h.2, List.pairwise_singleton .., ?_⟩
    intro a ha b hb
    rw [List.mem_singleton] at hb
    subst hb
    simpa using List.any_eq_false.mp hnew a ha

theorem validStep_inv {starts : List ℚ} {acc : List KeyMoment}
    (h : TsInv starts acc) (moment : KeyMoment) :
    TsInv starts (validStep starts acc moment) := by
  have hexact : starts.any (fun t => decide (t = moment.timestamp)) = true →
      moment.timestamp ∈ starts := by
    intro hc
    obtain ⟨t, ht, hteq⟩ := List.any_eq_true.mp hc
    rw [decide_eq_true_eq] at hteq
    exact hteq ▸ ht
  unfold validStep
  cases hf : starts.find? (fun t => decide (qAbs (t - moment.timestamp) < 1)) with
  | none =>
    dsimp only
    split_ifs with hc
    · rw [Bool.and_eq_true, Bool.not_eq_true'] at hc
      exact tsInv_push h moment (hexact hc.1) hc.2
    · exact h
  | some closest =>
    have hcs : closest ∈ starts := List.mem_of_find?_eq_some hf
    dsimp only
    split_ifs with h1 h2
    · rw [Bool.and_eq_true, Bool.not_eq_true'] at h2
      exact tsInv_push h moment (hexact h2.1) h2.2
    · exact h
    · rw [Bool.not_eq_true] at h1
      exact tsInv_push h { timestamp := closest, reason := moment.reason } hcs h1

theorem validateMoments_inv (starts : List ℚ) (candidates : List KeyMoment) :
    TsInv starts (validateMoments starts candidates) := by
  suffices h : ∀ acc, TsInv starts acc →
      TsInv starts (candidates.foldl (validStep starts) acc) from
    h [] (tsInv_nil starts)
  induction candidates with
  | nil => intro acc h; simpa using h
  | cons c rest ih =>
    intro acc h
    rw [List.foldl_cons]
    exact ih _ (validStep_inv h c)

theorem strideGo_subset {α : Type _} (step : ℕ) :
    ∀ (l : List α) (k : ℕ) (x : α), x ∈ strideGo step l k → x ∈ l := by
  intro l
  induction l with
  | nil => intro k x hx; simp [strideGo] at hx
  | cons a rest ih =>
    intro k x hx
    cases k with
    | zero =>
      rw [strideGo] at hx
      rcases List.mem_cons.1 hx with hx | hx
      · exact hx ▸ List.mem_cons_self a rest
      · exact List.mem_cons_of_mem a (ih _ x hx)
    | succ k =>
      rw [strideGo] at hx
      exact List.mem_cons_of_mem a (ih _ x hx)

theorem strideFromFirst_subset {α : Type _} (step : ℕ) (l : List α) (x : α)
    (hx : x ∈ strideFromFirst step l) : x ∈ l :=
  strideGo_subset step l 0 x hx

theorem strideFromStep_subset {α : Type _} (step : ℕ) (l : List α) (x : α)
    (hx : x ∈ strideFromStep step l) : x ∈ l :=
  List.drop_subset step l (strideGo_subset step (l.drop step) 0 x hx)

theorem scanPush_inv {starts : List ℚ} {acc : List KeyMoment}
    (h : TsInv starts acc) {seg : TranscriptSegment}
    (hseg : seg.start ∈ starts) : TsInv starts (scanPush acc seg) := by
  rw [scanPush]
  split_ifs with h1
  · exact h
  · rw [Bool.not_eq_true] at h1
    exact tsInv_push h { timestamp := seg.start, reason := previewReason seg.text }
      hseg h1

theorem scanPush_extend (acc : List KeyMoment) (seg : TranscriptSegment) :
    ∃ s, scanPush acc seg = acc ++ s := by
  rw [scanPush]
  split_ifs with h1
  · exact ⟨[], by simp⟩
  · exact ⟨_, rfl⟩

theorem scanPush_length_le (acc : List KeyMoment) (seg : TranscriptSegment) :
    (scanPush acc seg).length ≤ acc.length + 1 := by
  rw [scanPush]
  split_ifs with h1
  · omega
  · simp

theorem scanLoop_inv {starts : List ℚ} (mf : ℕ) :
    ∀ (lst : List TranscriptSegment) (acc : List KeyMoment),
    (∀ seg ∈ lst, seg.start ∈ starts) → TsInv starts acc →
    TsInv starts (scanLoop mf lst acc) := by
  intro lst
  induction lst with
  | nil => intro acc _ h; simpa [scanLoop] using h
  | cons seg rest ih =>
    intro acc hl h
    rw [scanLoop]
    split_ifs with h1
    · exact ih _ (fun s hs => hl s (List.mem_cons_of_mem seg hs))
        (scanPush_inv h (hl seg (List.mem_cons_self seg rest)))
    · exact h

theorem scanLoop_extend (mf : ℕ) :
    ∀ (lst : List TranscriptSegment) (acc : List KeyMoment),
    ∃ s, scanLoop mf lst acc = acc ++ s := by
  intro lst
  induction lst with
  | nil => intro acc; exact ⟨[], by simp [scanLoop]⟩
  | cons seg rest ih =>
    intro acc
    rw [scanLoop]
    split_ifs with h1
    · obtain ⟨s1, hs1⟩ := scanPush_extend acc seg
      obtain ⟨s2, hs2⟩ := ih (scanPush acc seg)
      exact ⟨s1 ++ s2, by rw [hs2, hs1, List.append_assoc]⟩
    · exact ⟨[], by simp⟩

theorem scanLoop_length_le (mf : ℕ) :
    ∀ (lst : List TranscriptSegment) (acc : List KeyMoment),
    acc.length ≤ mf - 1 → (scanLoop mf lst acc).length ≤ mf - 1 := by
  intro lst
  induction lst with
  | nil => intro acc h; simpa [scanLoop] using h
  | cons seg rest ih =>
    intro acc h
    rw [scanLoop]
    split_ifs with h1
    · refine ih _ ?_
      have := scanPush_length_le acc seg
      omega
    · exact h

theorem fallbackOpening_inv (segments : List TranscriptSegment) :
    TsInv (segments.map (·.start)) (fallbackOpening segments) := by
  cases segments with
  | nil => exact tsInv_nil _
  | cons s ss =>
    refine ⟨?_, List.pairwise_singleton ..⟩
    intro m hm
    rw [fallbackOpening, List.mem_singleton] at hm
    subst hm
    exact List.mem_map_of_mem _ (List.mem_cons_self s ss)

theorem fallbackAfterKeywords_inv (segments : List TranscriptSegment) (mf : ℕ) :
    TsInv (segments.map (·.start)) (fallbackAfterKeywords segments mf) := by
  refine scanLoop_inv mf _ _ ?_ (fallbackOpening_inv segments)
  intro seg hseg
  exact List.mem_map_of_mem _
    (List.mem_of_mem_filter (strideFromFirst_subset _ _ _ hseg))

theorem fallbackAfterEven_inv (segments : List TranscriptSegment) (mf : ℕ) :
    TsInv (segments.map (·.start)) (fallbackAfterEven segments mf) := by
  rw [fallbackAfterEven]
  split_ifs with h1
  · refine scanLoop_inv mf _ _ ?_ (fallbackAfterKeywords_inv segments mf)
    intro seg hseg
    exact List.mem_map_of_mem _ (strideFromStep_subset _ _ _ hseg)
  · exact fallbackAfterKeywords_inv segments mf

theorem fallbackMoments_inv (segments : List TranscriptSegment) (mf : ℕ) :
    TsInv (segments.map (·.start)) (fallbackMoments segments mf) := by
  rw [fallbackMoments]
  cases hlast : segments.getLast? with
  | none => exact fallbackAfterEven_inv segments mf
  | some lastSeg =>
    have hmem : lastSeg ∈ segments := by
      obtain ⟨hne, heq⟩ :=
        List.mem_getLast?_eq_getLast (show lastSeg ∈ segments.getLast? from hlast)
      exact heq ▸ List.getLast_mem hne
    dsimp only
    split_ifs with h1
    · exact fallbackAfterEven_inv segments mf
    · rw [Bool.not_eq_true] at h1
      exact tsInv_push (fallbackAfterEven_inv segments mf) _
        (List.mem_map_of_mem _ hmem) h1

theorem identifyKeyMomentsCore_inv (segments : List TranscriptSegment)
    (mf : ℕ) (candidates : List KeyMoment) :
    TsInv (segments.map (·.start))
      (if (validateMoments (segments.map (·.start)) candidates).length <
          min 3 (segments.map (·.start)).length
       then fallbackMoments segments mf
       else validateMoments (segments.map (·.start)) candidates) := by
  split_ifs with h
  · exact fallbackMoments_inv segments mf
  · exact validateMoments_inv _ candidates

theorem stripWS_append (a b : List Char) :
    stripWS (a ++ b) = stripWS a ++ stripWS b :=
  List.filter_append a b

theorem stripWS_dropWhile (l : List Char) :
    stripWS (l.dropWhile isWSChar) = stripWS l := by
  induction l with
  | nil => rfl
  | cons c rest ih =>
    by_cases h : isWSChar c = true
    · rw [List.dropWhile_cons, if_pos h, ih]
      simp [stripWS, List.filter_cons, h]
    · simp only [Bool.not_eq_true] at h
      rw [List.dropWhile_cons, h]
      simp

theorem stripWS_reverse (l : List Char) :
    stripWS l.reverse = (stripWS l).reverse :=
  List.filter_reverse _ l

theorem stripWS_trim (l : List Char) : stripWS (trimChars l) = stripWS l := by
  rw [trimChars, stripWS_reverse, stripWS_dropWhile, stripWS_reverse,
    stripWS_dropWhile, List.reverse_reverse]

theorem stripWS_eq_nil_of_trim_isEmpty {l : List Char}
    (h : (trimChars l).isEmpty = true) : stripWS l = [] := by
  rw [← stripWS_trim, List.isEmpty_iff.mp h]
  rfl

theorem chunkLoop_stripWS :
    ∀ (ss : List (List Char)) (chunks : List (List Char)) (cur : List Char),
    stripWS ((chunkLoop ss chunks cur).1.flatten ++ (chunkLoop ss chunks cur).2) =
      stripWS (chunks.flatten ++ cur ++ ss.flatten) := by
  intro ss
  induction ss with
  | nil => intro chunks cur; simp [chunkLoop]
  | cons s rest ih =>
    intro chunks cur
    rw [chunkLoop]
    split_ifs with h
    · rw [ih]
      simp [stripWS_append, stripWS_trim, List.append_assoc]
    · rw [ih]
      simp [stripWS_append, List.append_assoc]

theorem chunksOf_stripWS (text : List Char) :
    stripWS (chunksOf text).flatten = stripWS (sentencesOf text).flatten := by
  have h := chunkLoop_stripWS (sentencesOf text) [] []
  rw [chunksOf]
  split_ifs with hc
  · have h2 := stripWS_eq_nil_of_trim_isEmpty hc
    rw [stripWS_append, h2, List.append_nil] at h
    simpa using h
  · rw [List.flatten_append]
    simp only [List.flatten_cons, List.flatten_nil, List.append_nil]
    rw [stripWS_append, stripWS_trim, ← stripWS_append, h]
    simp

theorem msGo_no_term :
    ∀ (l : List Char) (cur : List Char), (∀ c ∈ l, isTermChar c = false) →
    msGo l cur false = [] := by
  intro l
  induction l with
  | nil => intro cur _; rfl
  | cons c rest ih =>
    intro cur h
    rw [msGo]
    simp only [h c (List.mem_cons_self c rest), if_neg, Bool.false_eq_true,
      if_false]
    exact ih _ (fun d hd => h d (List.mem_cons_of_mem c hd))

theorem msGo_flatten :
    ∀ (l : List Char) (cur : List Char) (b : Bool),
    (∃ c, l.getLast? = some c ∧ isTermChar c = true) →
    (b = true ∨ cur ≠ [] ∨ (∀ c, l.head? = some c → isTermChar c = false)) →
    (msGo l cur b).flatten = cur.reverse ++ l := by
  intro l
  induction l with
  | nil => rintro cur b ⟨c, hc, _⟩ _; simp at hc
  | cons c rest ih =>
    intro cur b hlast hok
    cases rest with
    | nil =>
      obtain ⟨d, hd, hdterm⟩ := hlast
      have hcd : c = d := by simpa using hd
      subst hcd
      cases b with
      | true => simp [msGo, hdterm]
      | false =>
        have hcur : cur ≠ [] := by
          rcases hok with h | h | h
          · exact absurd h (by simp)
          · exact h
          · exact absurd (h c rfl) (by simp [hdterm])
        simp [msGo, hdterm, List.isEmpty_iff, hcur]
    | cons e rest' =>
      have hlast' : ∃ x, (e :: rest').getLast? = some x ∧ isTermChar x = true := by
        obtain ⟨d, hd, hdterm⟩ := hlast
        rw [List.getLast?_cons_cons] at hd
        exact ⟨d, hd, hdterm⟩
      cases b with
      | true =>
        by_cases hct : isTermChar c = true
        · rw [msGo, if_pos rfl, if_pos hct,
            ih (c :: cur) true hlast' (Or.inl rfl)]
          simp
        · simp only [Bool.not_eq_true] at hct
          rw [msGo, if_pos rfl, hct]
          simp only [Bool.false_eq_true, if_false, List.flatten_cons]
          rw [ih [c] false hlast' (Or.inr (Or.inl (by simp)))]
          simp
      | false =>
        by_cases hct : isTermChar c = true
        · have hcur : cur ≠ [] := by
            rcases hok with h | h | h
            · exact absurd h (by simp)
            · exact h
            · exact absurd (h c rfl) (by simp [hct])
          rw [msGo]
          simp only [Bool.false_eq_true, if_false, hct, if_true,
            List.isEmpty_iff, if_neg hcur]
          rw [ih (c :: cur) true hlast' (Or.inl rfl)]
          simp
        · simp only [Bool.not_eq_true] at hct
          rw [msGo]
          simp only [Bool.false_eq_true, if_false, hct]
          rw [ih (c :: cur) false hlast' (Or.inr (Or.inl (by simp)))]
          simp

/-- When the text has no terminator at all, or starts with a
non-terminator and ends with a terminator, the sentence matcher covers
the whole text. -/
theorem sentences_flatten_covers (text : List Char)
    (h : (∀ c ∈ text, isTermChar c = false) ∨
      ((∃ c, text.head? = some c ∧ isTermChar c = false) ∧
       (∃ d, text.getLast? = some d ∧ isTermChar d = true))) :
    (sentencesOf text).flatten = text := by
  rcases h with h | ⟨⟨c0, hc0, hc0f⟩, hlast⟩
  · rw [sentencesOf, matchSentences, msGo_no_term text [] h]
    simp
  · have hcov : (matchSentences text).flatten = [] ++ text := by
      rw [matchSentences]
      exact msGo_flatten text [] false hlast
        (Or.inr (Or.inr (fun c hc => by
          rw [hc0, Option.some_inj] at hc
          exact hc ▸ hc0f)))
    rw [List.nil_append] at hcov
    have htne : text ≠ [] := by
      intro h
      rw [h] at hc0
      simp at hc0
    have hmne : ¬(matchSentences text).isEmpty = true := by
      rw [List.isEmpty_iff]
      intro h
      rw [h] at hcov
      exact htne hcov.symm
    rw [sentencesOf, if_neg hmne]
    exact hcov

theorem dropWhileWS_eq_self {l : List Char}
    (h : ∀ c ∈ l, isWSChar c = false) : l.dropWhile isWSChar = l := by
  cases l with
  | nil => rfl
  | cons x xs =>
    rw [List.dropWhile_cons, h x (List.mem_cons_self x xs)]
    simp

theorem trimChars_eq_self {l : List Char}
    (h : ∀ c ∈ l, isWSChar c = false) : trimChars l = l := by
  rw [trimChars, dropWhileWS_eq_self h,
    dropWhileWS_eq_self (fun c hc => h c (List.mem_reverse.mp hc)),
    List.reverse_reverse]

theorem bigSentence1_noWS : ∀ c ∈ bigSentence1, isWSChar c = false := by
  intro c hc
  rw [bigSentence1] at hc
  rcases List.mem_append.mp hc with hc | hc
  · rw [List.eq_of_mem_replicate hc]; rfl
  · rw [List.mem_singleton.mp hc]; rfl

theorem bigSentence2_noWS : ∀ c ∈ bigSentence2, isWSChar c = false := by
  intro c hc
  rw [bigSentence2] at hc
  rcases List.mem_append.mp hc with hc | hc
  · rw [List.eq_of_mem_replicate hc]; rfl
  · rw [List.mem_singleton.mp hc]; rfl

theorem msGo_nonterm_run (ch : Char) (hch : isTermChar ch = false) :
    ∀ (n : ℕ) (l cur : List Char),
    msGo (List.replicate n ch ++ l) cur false =
      msGo l (List.replicate n ch ++ cur) false := by
  intro n
  induction n with
  | zero => intro l cur; simp
  | succ m ih =>
    intro l cur
    rw [List.replicate_succ, List.cons_append, msGo]
    simp only [Bool.false_eq_true, if_false, hch]
    rw [ih l (ch :: cur), List.append_cons, ← List.replicate_succ',
      List.replicate_succ, List.cons_append]

theorem matchSentences_bigText :
    matchSentences bigText = [bigSentence1, bigSentence2] := by
  have hne1 : (List.replicate 3001 'a').isEmpty = false := by
    rw [List.isEmpty_eq_false]
    intro h
    have h2 := congrArg List.length h
    rw [List.length_replicate, List.length_nil] at h2
    exact absurd h2 (by decide)
  rw [matchSentences, bigText, List.append_assoc, List.cons_append,
    msGo_nonterm_run 'a' (by decide) 3001 _ [], List.append_nil, msGo]
  simp only [Bool.false_eq_true, if_false, show isTermChar '.' = true from rfl,
    if_true, hne1]
  rw [show List.replicate 3001 'b' ++ ['.'] =
    'b' :: (List.replicate 3000 'b' ++ ['.']) from by
      rw [show (3001 : ℕ) = 3000 + 1 from rfl, List.replicate_succ,
        List.cons_append]]
  rw [msGo]
  simp only [if_true, show isTermChar 'b' = false from rfl,
    Bool.false_eq_true, if_false]
  rw [msGo_nonterm_run 'b' (by decide) 3000 ['.'] ['b'], msGo]
  simp only [Bool.false_eq_true, if_false, show isTermChar '.' = true from rfl,
    if_true]
  have hne2 : (List.replicate 3000 'b' ++ ['b']).isEmpty = false := by
    rw [List.isEmpty_eq_false]
    intro h
    have h2 := congrArg List.length h
    rw [List.length_append, List.length_replicate, List.length_singleton,
      List.length_nil] at h2
    exact absurd h2 (by decide)
  simp only [hne2, Bool.false_eq_true, if_false]
  rw [msGo]
  simp only [if_true]
  rw [show ('.' :: List.replicate 3001 'a').reverse = bigSentence1 from by
    rw [List.reverse_cons, List.reverse_replicate, bigSentence1]]
  rw [show ('.' :: (List.replicate 3000 'b' ++ ['b'])).reverse = bigSentence2 from by
    rw [show List.replicate 3000 'b' ++ ['b'] = List.replicate 3001 'b' from by
        rw [show (3001 : ℕ) = 3000 + 1 from rfl, ← List.replicate_succ'],
      List.reverse_cons, List.reverse_replicate, bigSentence2]]

theorem chunkLoop_cons_add (s : List Char) (rest chunks : List (List Char))
    (cur : List Char)
    (h : ¬(cur.length + s.length > MAX_CHUNK_SIZE ∧ cur.length > 0)) :
    chunkLoop (s :: rest) chunks cur = chunkLoop rest chunks (cur ++ s) := by
  rw [chunkLoop, if_neg]
  simp only [Bool.and_eq_true, decide_eq_true_eq]
  exact h

theorem chunkLoop_cons_flush (s : List Char) (rest chunks : List (List Char))
    (cur : List Char) (h1 : cur.length + s.length > MAX_CHUNK_SIZE)
    (h2 : cur.length > 0) :
    chunkLoop (s :: rest) chunks cur =
      chunkLoop rest (chunks ++ [trimChars cur]) s := by
  rw [chunkLoop, if_pos]
  simp only [Bool.and_eq_true, decide_eq_true_eq]
  exact ⟨h1, h2⟩

theorem chunksOf_bigText :
    chunksOf bigText = [trimChars bigSentence1, bigSentence2] := by
  have hs1 : bigSentence1.length = 3002 := by simp [bigSentence1]
  have hs2 : bigSentence2.length = 3002 := by simp [bigSentence2]
  have hsent : sentencesOf bigText = [bigSentence1, bigSentence2] := by
    rw [sentencesOf, matchSentences_bigText]
    simp
  have hloop : chunkLoop [bigSentence1, bigSentence2] [] [] =
      ([trimChars bigSentence1], bigSentence2) := by
    rw [chunkLoop_cons_add _ _ _ _ (fun hc => absurd hc.2 (by simp)),
      List.nil_append,
      chunkLoop_cons_flush _ _ _ _
        (by rw [hs1, hs2, show MAX_CHUNK_SIZE = 3000 from rfl]; omega)
        (by rw [hs1]; omega),
      chunkLoop, List.nil_append]
  rw [chunksOf, hsent, hloop]
  rw [trimChars_eq_self bigSentence2_noWS]
  have hempty : bigSentence2.isEmpty = false := by
    rw [List.isEmpty_eq_false]
    intro h
    have h2 := congrArg List.length h
    rw [hs2] at h2
    exact absurd h2 (by decide)
  rw [hempty, if_neg (by decide)]
  rfl

theorem fallbackAfterKeywords_extend (segments : List TranscriptSegment)
    (mf : ℕ) : ∃ t, fallbackAfterKeywords segments mf =
      fallbackOpening segments ++ t := by
  rw [fallbackAfterKeywords]
  exact scanLoop_extend mf _ _

theorem fallbackAfterEven_extend (segments : List TranscriptSegment)
    (mf : ℕ) : ∃ t, fallbackAfterEven segments mf =
      fallbackAfterKeywords segments mf ++ t := by
  rw [fallbackAfterEven]
  split_ifs with h1
  · exact scanLoop_extend mf _ _
  · exact ⟨[], by simp⟩

theorem fallbackMoments_extend (segments : List TranscriptSegment)
    (mf : ℕ) : ∃ t, fallbackMoments segments mf =
      fallbackAfterEven segments mf ++ t := by
  rw [fallbackMoments]
  cases segments.getLast? with
  | none => exact ⟨[], by simp⟩
  | some lastSeg =>
    dsimp only
    split_ifs with h1
    · exact ⟨[], by simp⟩
    · exact ⟨_, rfl⟩

theorem fallback_mem_opening (s : TranscriptSegment)
    (ss : List TranscriptSegment) (mf : ℕ) :
    ∃ m ∈ fallbackMoments (s :: ss) mf, m.timestamp = s.start := by
  obtain ⟨t1, h1⟩ := fallbackAfterKeywords_extend (s :: ss) mf
  obtain ⟨t2, h2⟩ := fallbackAfterEven_extend (s :: ss) mf
  obtain ⟨t3, h3⟩ := fallbackMoments_extend (s :: ss) mf
  refine ⟨{ timestamp := s.start, reason := openingReason s }, ?_, rfl⟩
  rw [h3, h2, h1]
  apply List.mem_append_left
  apply List.mem_append_left
  apply List.mem_append_left
  rw [fallbackOpening]
  exact List.mem_singleton.mpr rfl

theorem fallback_mem_last (segments : List TranscriptSegment) (mf : ℕ)
    (hne : segments ≠ []) :
    ∃ m ∈ fallbackMoments segments mf,
      m.timestamp = (segments.getLast hne).start := by
  rw [fallbackMoments, List.getLast?_eq_getLast_of_ne_nil hne]
  dsimp only
  split_ifs with h1
  · obtain ⟨m, hm, hmeq⟩ := List.any_eq_true.mp h1
    exact ⟨m, hm, by simpa using hmeq⟩
  · exact ⟨_, List.mem_append_right _ (List.mem_singleton.mpr rfl), rfl⟩

theorem fallbackOpening_length_le (segments : List TranscriptSegment) :
    (fallbackOpening segments).length ≤ 1 := by
  cases segments <;> simp [fallbackOpening]

theorem fallback_length_le (segments : List TranscriptSegment) (mf : ℕ)
    (hmf : 2 ≤ mf) : (fallbackMoments segments mf).length ≤ mf := by
  have h0 : (fallbackOpening segments).length ≤ mf - 1 := by
    have := fallbackOpening_length_le segments
    omega
  have h1 : (fallbackAfterKeywords segments mf).length ≤ mf - 1 := by
    rw [fallbackAfterKeywords]
    exact scanLoop_length_le mf _ _ h0
  have h2 : (fallbackAfterEven segments mf).length ≤ mf - 1 := by
    rw [fallbackAfterEven]
    split_ifs with hc
    · exact scanLoop_length_le mf _ _ h1
    · exact h1
  rw [fallbackMoments]
  cases segments.getLast? with
  | none => dsimp only; omega
  | some lastSeg =>
    dsimp only
    split_ifs with hc
    · omega
    · rw [List.length_append, List.length_singleton]
      omega

/-! ## Claim theorems -/

/-- Claim C5, amended (corrected).  Concatenating the chunks (trimmed,
in order) always reproduces, up to whitespace, the concatenation of the
sentences the matcher found (the whole text when no sentence matches);
this equals the original text whenever the text contains no sentence
terminator at all, or begins with a non-terminator and ends with a
terminator.  In general, input after the last sentence terminator (and a
leading terminator run) is *dropped* by `match(/[^.!?]+[.!?]+/g)` — see
the counterexample — so the claim's "no non-whitespace character of the
input is lost, including text after the last sentence terminator" does
not hold as stated. -/
theorem chunkConcatTheorem (text : List Char) :
    stripWS (chunksOf text).flatten = stripWS (sentencesOf text).flatten ∧
    ((∀ c ∈ text, isTermChar c = false) ∨
      ((∃ c, text.head? = some c ∧ isTermChar c = false) ∧
       (∃ d, text.getLast? = some d ∧ isTermChar d = true)) →
      stripWS (chunksOf text).flatten = stripWS text) := by
  refine ⟨chunksOf_stripWS text, fun h => ?_⟩
  rw [chunksOf_stripWS text, sentences_flatten_covers text h]

/-- Counterexample to C5 as stated: for the input `"a. b"` the chunker
returns the single chunk `"a."`; the non-whitespace character `b` (text
after the last sentence terminator) is lost. -/
theorem chunkTrailingTextLost :
    chunksOf "a. b".toList = ["a.".toList] ∧
    stripWS (chunksOf "a. b".toList).flatten ≠ stripWS "a. b".toList := by
  constructor
  · decide
  · decide

/-- Witness for C5, at the input `"a b."` (starts with a non-terminator,
ends with a terminator): the chunk concatenation reproduces the text up
to whitespace. -/
theorem chunkConcatWitness :
    (∃ c, "a b.".toList.head? = some c ∧ isTermChar c = false) ∧
    (∃ d, "a b.".toList.getLast? = some d ∧ isTermChar d = true) ∧
    stripWS (chunksOf "a b.".toList).flatten = stripWS "a b.".toList :=
  ⟨⟨'a', rfl, by decide⟩, ⟨'.', by decide, by decide⟩,
    (chunkConcatTheorem "a b.".toList).2
      (Or.inr ⟨⟨'a', rfl, by decide⟩, ⟨'.', by decide, by decide⟩⟩)⟩

/-- Claim C1, amended (corrected).  For every frame whose vision call
fails **by raising an error** (any failure other than the HTTP-400
"model rejects images" response, which `summarizeFrame` converts into a
normally returned placeholder), the loop records the
`[Analysis failed]` marker for that frame and resets the carried-forward
context, so the next frame's prompt is built with no previous-frame
description.  In the rejects-images mode the placeholder narration is
emitted but its text is carried forward as the next prompt's context —
see the counterexample. -/
theorem narratorFailureReset (segments : List TranscriptSegment)
    (l1 : List (FrameInfo × VisionOutcome)) (f g : FrameInfo)
    (o : VisionOutcome) (l2 : List (FrameInfo × VisionOutcome)) :
    (narrateFrames segments
        (l1 ++ (f, VisionOutcome.err) :: (g, o) :: l2)).summaries.get?
        l1.length = some (failMarker f) ∧
    (narrateFrames segments
        (l1 ++ (f, VisionOutcome.err) :: (g, o) :: l2)).prompts.get?
        (l1.length + 1) = some (framePrompt g none) := by
  constructor
  · have hs := narrate_foldl_summaries segments
      (l1 ++ (f, VisionOutcome.err) :: (g, o) :: l2)
      { prev := none, summaries := [], prompts := [] }
    rw [narrateFrames, hs, List.nil_append, List.map_append, List.map_cons,
      List.get?_append_right (by rw [List.length_map])]
    rw [List.length_map, Nat.sub_self]
    rfl
  · have hsplit : narrateFrames segments
        (l1 ++ (f, VisionOutcome.err) :: (g, o) :: l2) =
        l2.foldl (narrateStep segments)
          (narrateStep segments
            (narrateStep segments
              (l1.foldl (narrateStep segments)
                { prev := none, summaries := [], prompts := [] })
              (f, VisionOutcome.err))
            (g, o)) := by
      rw [narrateFrames, List.foldl_append, List.foldl_cons, List.foldl_cons]
    obtain ⟨t, ht⟩ := narrate_prompts_extend segments l2
      (narrateStep segments
        (narrateStep segments
          (l1.foldl (narrateStep segments)
            { prev := none, summaries := [], prompts := [] })
          (f, VisionOutcome.err))
        (g, o))
    have hlen : (l1.foldl (narrateStep segments)
        { prev := none, summaries := [], prompts := [] }).prompts.length =
        l1.length := by
      rw [narrate_prompts_length]
      simp
    rw [hsplit, ht, narrateStep_prompts, narrateStep_err]
    dsimp only
    rw [List.append_assoc, List.append_assoc,
      List.get?_append_right (by omega), hlen,
      Nat.add_sub_cancel_left]
    rfl

/-- Counterexample to C1 as stated: when frame 1's vision call fails in
the "model rejects images" mode, the loop treats the returned
placeholder as a success: frame 2's prompt is built with the placeholder
text as previous-frame context — it references frame 1's (placeholder)
description instead of none. -/
theorem narratorRejectsImagesCarriesContext :
    (narrateFrames []
        [(⟨"p1".toList, 0, 1⟩, VisionOutcome.rejectsImages),
         (⟨"p2".toList, 3, 2⟩, VisionOutcome.ok "x".toList)]).prompts.get? 1 =
      some (framePrompt ⟨"p2".toList, 3, 2⟩ (some unsupportedPlaceholder)) ∧
    framePrompt ⟨"p2".toList, 3, 2⟩ (some unsupportedPlaceholder) ≠
      framePrompt ⟨"p2".toList, 3, 2⟩ none ∧
    containsSub "For context, the previous frame showed: ".toList
      (framePrompt ⟨"p2".toList, 3, 2⟩ (some unsupportedPlaceholder)) = true :=
  ⟨of_decide_eq_true (by with_unfolding_all rfl),
   of_decide_eq_true (by with_unfolding_all rfl),
   of_decide_eq_true (by with_unfolding_all rfl)⟩

/-- Claim C6 (confirmed).  Whatever the segment list, `maxFrames`, and
candidate list parsed from the AI response (the lenient parser can
produce any candidate list, so this covers every response text), the
selector's output is strictly ascending in timestamp — hence sorted with
no duplicate timestamps — has at most `maxFrames` entries, and every
returned timestamp is the `start` of some input segment. -/
theorem selectorOutputInvariants (segments : List TranscriptSegment)
    (mf : ℕ) (candidates : List KeyMoment) :
    List.Pairwise (fun a b => a.timestamp < b.timestamp)
      (identifyKeyMomentsCore segments mf candidates) ∧
    (identifyKeyMomentsCore segments mf candidates).length ≤ mf ∧
    ∀ m ∈ identifyKeyMomentsCore segments mf candidates,
      ∃ s ∈ segments, m.timestamp = s.start := by
  have hInv := identifyKeyMomentsCore_inv segments mf candidates
  set chosen :=
    if (validateMoments (segments.map (·.start)) candidates).length <
        min 3 (segments.map (·.start)).length
    then fallbackMoments segments mf
    else validateMoments (segments.map (·.start)) candidates with hchosen
  have hcore : identifyKeyMomentsCore segments mf candidates =
      (List.insertionSort byTimestamp chosen).take mf := by
    rw [identifyKeyMomentsCore, hchosen]
  have hperm : (List.insertionSort byTimestamp chosen).Perm chosen :=
    List.perm_insertionSort byTimestamp chosen
  have hsorted : List.Pairwise byTimestamp (List.insertionSort byTimestamp chosen) :=
    List.sorted_insertionSort byTimestamp chosen
  have hne : List.Pairwise (fun a b : KeyMoment => a.timestamp ≠ b.timestamp)
      (List.insertionSort byTimestamp chosen) :=
    (List.Perm.pairwise_iff (fun h => h.symm) hperm).mpr hInv.2
  refine ⟨?_, ?_, ?_⟩
  · rw [hcore]
    refine List.Pairwise.sublist (List.take_sublist mf _) ?_
    exact (hsorted.and hne).imp (fun h => lt_of_le_of_ne h.1 h.2)
  · rw [hcore, List.length_take]
    exact min_le_left mf _
  · intro m hm
    rw [hcore] at hm
    have hm2 : m ∈ chosen := hperm.mem_iff.mp (List.take_subset mf _ hm)
    obtain ⟨s, hs, hseq⟩ := List.mem_map.mp (hInv.1 m hm2)
    exact ⟨s, hs, hseq.symm⟩

/-- Claim C4, amended (corrected).  Whenever the fallback heuristic runs
(the validated set has fewer than `min(3, segmentCount)` entries) on a
non-empty segment list **and `maxFrames ≥ 2`**, the returned list
contains the first segment's start and the last segment's start among
its timestamps; it is non-empty, and has at least two entries whenever
those two starts differ.  (For `maxFrames ≤ 1` the final truncation
`slice(0, maxFrames)` can drop the conclusion anchor — see the
counterexample — which is exactly the `maxFrames < 2` ambiguity the
design notes flag.) -/
theorem fallbackAnchors (s : TranscriptSegment) (ss : List TranscriptSegment)
    (mf : ℕ) (candidates : List KeyMoment) (hmf : 2 ≤ mf)
    (hfb : (validateMoments ((s :: ss).map (·.start)) candidates).length <
      min 3 ((s :: ss).map (·.start)).length) :
    (∃ m ∈ identifyKeyMomentsCore (s :: ss) mf candidates,
      m.timestamp = s.start) ∧
    (∃ m ∈ identifyKeyMomentsCore (s :: ss) mf candidates,
      m.timestamp = ((s :: ss).getLast (List.cons_ne_nil s ss)).start) ∧
    1 ≤ (identifyKeyMomentsCore (s :: ss) mf candidates).length ∧
    (s.start ≠ ((s :: ss).getLast (List.cons_ne_nil s ss)).start →
      2 ≤ (identifyKeyMomentsCore (s :: ss) mf candidates).length) := by
  have hcore : identifyKeyMomentsCore (s :: ss) mf candidates =
      (List.insertionSort byTimestamp (fallbackMoments (s :: ss) mf)).take mf := by
    simp only [identifyKeyMomentsCore]
    rw [if_pos hfb]
  have hlen : (List.insertionSort byTimestamp
      (fallbackMoments (s :: ss) mf)).length ≤ mf := by
    rw [(List.perm_insertionSort byTimestamp _).length_eq]
    exact fallback_length_le _ mf hmf
  have htake : identifyKeyMomentsCore (s :: ss) mf candidates =
      List.insertionSort byTimestamp (fallbackMoments (s :: ss) mf) := by
    rw [hcore, List.take_of_length_le hlen]
  have hperm : (identifyKeyMomentsCore (s :: ss) mf candidates).Perm
      (fallbackMoments (s :: ss) mf) := by
    rw [htake]
    exact List.perm_insertionSort byTimestamp _
  obtain ⟨m1, hm1, hm1eq⟩ := fallback_mem_opening s ss mf
  obtain ⟨m2, hm2, hm2eq⟩ := fallback_mem_last (s :: ss) mf (List.cons_ne_nil s ss)
  have hm1' : m1 ∈ identifyKeyMomentsCore (s :: ss) mf candidates :=
    hperm.mem_iff.mpr hm1
  have hm2' : m2 ∈ identifyKeyMomentsCore (s :: ss) mf candidates :=
    hperm.mem_iff.mpr hm2
  refine ⟨⟨m1, hm1', hm1eq⟩, ⟨m2, hm2', hm2eq⟩, ?_, ?_⟩
  · have := List.length_pos.mpr (List.ne_nil_of_mem hm1')
    omega
  · intro hne
    refine two_le_length_of_mem_ne hm1' hm2' ?_
    intro hcontra
    exact hne (by rw [← hm1eq, hcontra, hm2eq])

/-- Counterexample to C4 as stated: two segments starting at 0 and 10,
`maxFrames = 1`, no surviving candidates.  The fallback builds both
anchors, but the final `slice(0, maxFrames)` keeps only the opening one:
the result has a single moment, fewer than `min(2, segmentCount) = 2`,
and the last segment's start 10 is not in it. -/
theorem fallbackMaxFramesOneDropsConclusion :
    identifyKeyMomentsCore
        [⟨"A".toList, 0, 1⟩, ⟨"B".toList, 10, 11⟩] 1 [] =
      [⟨0, openingReason ⟨"A".toList, 0, 1⟩⟩] ∧
    (identifyKeyMomentsCore
        [⟨"A".toList, 0, 1⟩, ⟨"B".toList, 10, 11⟩] 1 []).length <
      min 2 2 ∧
    ((identifyKeyMomentsCore
        [⟨"A".toList, 0, 1⟩, ⟨"B".toList, 10, 11⟩] 1 []).all
      (fun m => !decide (m.timestamp = 10))) = true :=
  ⟨of_decide_eq_true (by with_unfolding_all rfl),
   of_decide_eq_true (by with_unfolding_all rfl),
   of_decide_eq_true (by with_unfolding_all rfl)⟩

/-- Witness for C4: segments starting at 0 and 10 with `maxFrames = 2`
and no candidates trigger the fallback, and both anchors survive. -/
theorem fallbackAnchorsWitness :
    (2 ≤ 2 ∧
      (validateMoments
        (([⟨"A".toList, 0, 1⟩, ⟨"B".toList, 10, 11⟩] :
          List TranscriptSegment).map (·.start)) []).length <
        min 3 (([⟨"A".toList, 0, 1⟩, ⟨"B".toList, 10, 11⟩] :
          List TranscriptSegment).map (·.start)).length ∧
      (0 : ℚ) ≠ 10) ∧
    (∃ m ∈ identifyKeyMomentsCore
        [⟨"A".toList, 0, 1⟩, ⟨"B".toList, 10, 11⟩] 2 [],
      m.timestamp = (0 : ℚ)) ∧
    (∃ m ∈ identifyKeyMomentsCore
        [⟨"A".toList, 0, 1⟩, ⟨"B".toList, 10, 11⟩] 2 [],
      m.timestamp = (10 : ℚ)) ∧
    2 ≤ (identifyKeyMomentsCore
        [⟨"A".toList, 0, 1⟩, ⟨"B".toList, 10, 11⟩] 2 []).length := by
  have h := fallbackAnchors ⟨"A".toList, 0, 1⟩ [⟨"B".toList, 10, 11⟩] 2 []
    (by omega) (of_decide_eq_true (by with_unfolding_all rfl))
  exact ⟨⟨le_refl 2, of_decide_eq_true (by with_unfolding_all rfl),
      of_decide_eq_true (by with_unfolding_all rfl)⟩,
    h.1, h.2.1, h.2.2.2 (of_decide_eq_true (by with_unfolding_all rfl))⟩

/-- Claim C3 (code bug).  The source's own comment says "Find the
closest actual timestamp within 1 second", but the code uses
`Array.prototype.find`, which returns the **first** start within 1
second in array order, not the closest.  At starts `[0, 3/2]` with
candidate timestamp `9/10`, the start `3/2` is strictly closer
(distance `3/5` against `9/10`), yet the code accepts the moment snapped
to `0`. -/
theorem snapTakesFirstWithinOneSecond :
    identifyKeyMomentsCore [⟨"A".toList, 0, 1⟩, ⟨"B".toList, mkRat 3 2, 2⟩] 30
        [⟨mkRat 9 10, "a".toList⟩, ⟨mkRat 3 2, "b".toList⟩] =
      [⟨0, "a".toList⟩, ⟨mkRat 3 2, "b".toList⟩] ∧
    qAbs (mkRat 3 2 - mkRat 9 10) < qAbs ((0 : ℚ) - mkRat 9 10) :=
  ⟨of_decide_eq_true (by with_unfolding_all rfl),
   of_decide_eq_true (by with_unfolding_all rfl)⟩

/-- Claim C9 (confirmed).  The Context Matcher returns the space-joined
texts of exactly the segments whose `[start, end]` interval intersects
`[t-c, t+c]` (that is, `start ≤ t+c` and `end ≥ t-c`), kept in segment
order (the filtered list is a sublist of the input), and returns the
non-empty `[No transcript available for this timestamp]` sentinel rather
than the empty string when no segment intersects. -/
theorem contextMatcherSpec (t c : ℚ) (segments : List TranscriptSegment) :
    (∀ s, s ∈ segments.filter (overlapsWindow (t - c) (t + c)) ↔
      s ∈ segments ∧ (s.start ≤ t + c ∧ t - c ≤ s.endTime)) ∧
    (segments.filter (overlapsWindow (t - c) (t + c))).Sublist segments ∧
    (segments.filter (overlapsWindow (t - c) (t + c)) = [] →
      getRelevantTranscriptForFrame t segments c = noTranscriptSentinel) ∧
    noTranscriptSentinel ≠ [] ∧
    (segments.filter (overlapsWindow (t - c) (t + c)) ≠ [] →
      getRelevantTranscriptForFrame t segments c =
        List.intercalate [' ']
          ((segments.filter (overlapsWindow (t - c) (t + c))).map (·.text))) := by
  refine ⟨?_, List.filter_sublist _, ?_, by decide, ?_⟩
  · intro s
    simp [overlapsWindow, List.mem_filter, decide_eq_true_eq, Bool.and_eq_true]
  · intro h
    simp [getRelevantTranscriptForFrame, h]
  · intro h
    simp only [getRelevantTranscriptForFrame]
    rw [if_neg (by simpa [List.isEmpty_iff] using h)]

/-- Witness for C9, at the concrete inputs of spec §8: segments
`A = [5,9]`, `B = [12,15]`; frame time 10 with window 5 intersects both
(result `"A B"`), frame time 100 intersects none (sentinel). -/
theorem contextMatcherSpecWitness :
    getRelevantTranscriptForFrame 10
      [⟨"A".toList, 5, 9⟩, ⟨"B".toList, 12, 15⟩] 5 = "A B".toList ∧
    getRelevantTranscriptForFrame 100
      [⟨"A".toList, 5, 9⟩, ⟨"B".toList, 12, 15⟩] 5 = noTranscriptSentinel := by
  constructor
  · exact ((contextMatcherSpec 10 5 [⟨"A".toList, 5, 9⟩, ⟨"B".toList, 12, 15⟩]).2.2.2.2
      (of_decide_eq_true (by with_unfolding_all rfl))).trans
      (of_decide_eq_true (by with_unfolding_all rfl))
  · exact (contextMatcherSpec 100 5 [⟨"A".toList, 5, 9⟩, ⟨"B".toList, 12, 15⟩]).2.2.1
      (of_decide_eq_true (by with_unfolding_all rfl))

/-- Claim C10 (confirmed, implicit invariant).  The frame loop pushes
exactly one narration entry per input frame: the resulting list is the
frame list mapped through the per-frame entry (success narration with
transcript context, or the failure placeholder), so it has one entry per
frame, in frame order, whatever the outcomes were. -/
theorem narratorOneEntryPerFrame (segments : List TranscriptSegment)
    (frames : List (FrameInfo × VisionOutcome)) :
    (narrateFrames segments frames).summaries =
      frames.map (narrationEntry segments) ∧
    (narrateFrames segments frames).summaries.length = frames.length := by
  have h := narrate_foldl_summaries segments frames
    { prev := none, summaries := [], prompts := [] }
  refine ⟨by simpa [narrateFrames] using h, ?_⟩
  rw [show (narrateFrames segments frames).summaries =
    frames.map (narrationEntry segments) from by simpa [narrateFrames] using h]
  exact List.length_map _ _

/-- Claim C2, amended (corrected).  When the AI text call of the
Key-Moment Selector itself fails, `identifyKeyMoments` does **not**
recover with the deterministic heuristic: its catch block rethrows, so
the caller receives the error, and it is the caller that falls back — to
fixed-interval frame extraction. -/
theorem keyMomentErrorSurfaces (segments : List TranscriptSegment)
    (maxFrames : ℕ) :
    identifyKeyMomentsE segments maxFrames AiTextOutcome.err =
      Except.error () ∧
    chooseFrameSource segments maxFrames AiTextOutcome.err =
      FrameSource.fixedIntervals :=
  ⟨rfl, rfl⟩

/-- Counterexample to C2 as stated: with a concrete one-segment
transcript, a failing AI call makes the selector return an error — in
particular not the `Except.ok` carrying the fallback heuristic's moments
that the claim promises. -/
theorem keyMomentErrorNotRecovered :
    identifyKeyMomentsE [⟨"A".toList, 0, 1⟩] 5 AiTextOutcome.err =
      Except.error () ∧
    Except.error () ≠
      Except.ok (identifyKeyMomentsCore [⟨"A".toList, 0, 1⟩] 5 []) :=
  ⟨rfl, fun h => Except.noConfusion h⟩

/-- Claim C7 (confirmed).  A transcript chunking to exactly one chunk
produces exactly one map call (on the transcript) followed by exactly
one reduce call; a transcript chunking to `N ≠ 1` chunks produces one
map call per chunk, in chunk order with the right ordinals, followed by
exactly one reduce call receiving the mapped extractions in that same
order. -/
theorem mapReduceCallPattern (transcript : List Char)
    (frameSummaries : List (List Char))
    (mapO : List Char → ℕ → ℕ → List Char)
    (reduceO : List (List Char) → List (List Char) → List Char) :
    ((chunksOf transcript).length = 1 →
      (summarizeWithOllama transcript frameSummaries mapO reduceO).2 =
        [OllamaCall.map transcript 1 1,
         OllamaCall.reduce [mapO transcript 1 1] frameSummaries]) ∧
    ((chunksOf transcript).length ≠ 1 →
      (summarizeWithOllama transcript frameSummaries mapO reduceO).2 =
        ((chunksOf transcript).enum.map
          (fun p => OllamaCall.map p.2 (p.1 + 1) (chunksOf transcript).length)) ++
        [OllamaCall.reduce
          ((chunksOf transcript).enum.map
            (fun p => mapO p.2 (p.1 + 1) (chunksOf transcript).length))
          frameSummaries]) := by
  constructor
  · intro h
    simp [summarizeWithOllama, h]
  · intro h
    simp [summarizeWithOllama, h, mapPhase_eq, List.enum]

/-- Claim C8 (confirmed).  The Subtitle Parser returns the cues of the
well-formed blocks, in block order (`filterMap` over the blocks);
`fullText` is the segment texts joined with single spaces in that order;
and every block without an arrow timestamp line, or whose cue text is
empty, is skipped (yields no cue) rather than raising an error — the
parser is a total function. -/
theorem parseVTTStructure (content : List Char) :
    (parseVTT content).segments =
      ((blocksOf content).filterMap parseBlock).map
        (fun cue => { text := cue.text, start := cue.start,
                      endTime := cue.endTime }) ∧
    (parseVTT content).fullText =
      List.intercalate [' '] ((parseVTT content).segments.map (·.text)) ∧
    ∀ b ∈ blocksOf content,
      ((∀ l ∈ blockLines b, hasArrow l = false) ∨
        blockCueText (blockLines b) = []) → parseBlock b = none := by
  refine ⟨?_, rfl, ?_⟩
  · rw [parseVTT]
    rw [foldl_pushCue_filterMap (blocksOf content) []]
    rw [List.nil_append]
  · intro b _ hcond
    by_cases hhdr : ("WEBVTT".toList.isPrefixOf b ||
        "NOTE".toList.isPrefixOf b) = true
    · rw [parseBlock, if_pos hhdr]
    · rw [parseBlock, if_neg hhdr]
      by_cases hlen : (blockLines b).length < 2
      · rw [if_pos hlen]
      · rw [if_neg hlen]
        rcases hcond with h | h
        · have hfind : (blockLines b).find? hasArrow = none :=
            List.find?_eq_none.mpr (fun x hx => by simp [h x hx])
          rw [hfind]
        · cases hfind : (blockLines b).find? hasArrow with
          | none => rfl
          | some tsLine =>
            dsimp only
            cases hts : firstTsPair tsLine with
            | none => rfl
            | some p =>
              obtain ⟨t1, t2⟩ := p
              dsimp only
              rw [if_pos (by rw [h]; rfl)]

/-- Witness for C8, on a concrete subtitle file with a `WEBVTT` header
block, one well-formed cue, and one malformed block without an arrow
line: the malformed block is skipped, the cue is parsed per spec §8
(`start 0`, `end 2`, text `"Hello world"`), and `fullText` is the joined
segment texts. -/
theorem parseVTTStructureWitness :
    (∀ l ∈ blockLines "malformed block\nno arrow here".toList,
      hasArrow l = false) ∧
    "malformed block\nno arrow here".toList ∈
      blocksOf "WEBVTT\n\n00:00:00.000 --> 00:00:02.000\nHello world\n\nmalformed block\nno arrow here".toList ∧
    parseBlock "malformed block\nno arrow here".toList = none ∧
    (parseVTT "WEBVTT\n\n00:00:00.000 --> 00:00:02.000\nHello world\n\nmalformed block\nno arrow here".toList).fullText =
      List.intercalate [' ']
        ((parseVTT "WEBVTT\n\n00:00:00.000 --> 00:00:02.000\nHello world\n\nmalformed block\nno arrow here".toList).segments.map (·.text)) ∧
    (parseVTT "WEBVTT\n\n00:00:00.000 --> 00:00:02.000\nHello world\n\nmalformed block\nno arrow here".toList).segments =
      [⟨"Hello world".toList, 0, 2⟩] := by
  refine ⟨by decide, by decide, ?_, ?_, ?_⟩
  · exact (parseVTTStructure "WEBVTT\n\n00:00:00.000 --> 00:00:02.000\nHello world\n\nmalformed block\nno arrow here".toList).2.2
      "malformed block\nno arrow here".toList (by decide) (Or.inl (by decide))
  · exact (parseVTTStructure "WEBVTT\n\n00:00:00.000 --> 00:00:02.000\nHello world\n\nmalformed block\nno arrow here".toList).2.1
  · exact of_decide_eq_true (by with_unfolding_all rfl)

/-- Witness for C7 at two concrete transcripts: `"Hi."` chunks to one
chunk (one map call on the transcript, then one reduce call);
`bigText` chunks to two chunks (two map calls in chunk order, then one
reduce call receiving both extractions in that order). -/
theorem mapReduceCallPatternWitness :
    ((chunksOf "Hi.".toList).length = 1 ∧
      (summarizeWithOllama "Hi.".toList []
          (fun _ n _ => natToChars n) (fun _ _ => [])).2 =
        [OllamaCall.map "Hi.".toList 1 1,
         OllamaCall.reduce [natToChars 1] []]) ∧
    ((chunksOf bigText).length ≠ 1 ∧
      (summarizeWithOllama bigText []
          (fun _ n _ => natToChars n) (fun _ _ => [])).2 =
        [OllamaCall.map (trimChars bigSentence1) 1 2,
         OllamaCall.map bigSentence2 2 2,
         OllamaCall.reduce [natToChars 1, natToChars 2] []]) := by
  have hone : (chunksOf "Hi.".toList).length = 1 := by decide
  have hbig : (chunksOf bigText).length ≠ 1 := by
    rw [chunksOf_bigText]
    simp
  refine ⟨⟨hone, ?_⟩, hbig, ?_⟩
  · rw [(mapReduceCallPattern "Hi.".toList []
      (fun _ n _ => natToChars n) (fun _ _ => [])).1 hone]
  · rw [(mapReduceCallPattern bigText []
      (fun _ n _ => natToChars n) (fun _ _ => [])).2 hbig]
    rw [chunksOf_bigText]
    simp [List.enum, List.enumFrom]

end Transcribe
